import Mathlib

/-!
# Verification of the MNEM_TO_ENTROPY mnemonic→entropy decoder

A shallow embedding of `src/main.rs` of the MNEM_TO_ENTROPY repository:
the BIP39 mnemonic→entropy decoding core (word lookup, 11-bit packing,
byte packing, checksum handling, diagnostic classification), and the
batch model (index tagging, sort by index, exit status, advisory).

The strict validated-BIP39 path (`bip39` crate: `Mnemonic::from_str`,
`Language::English.word_list()`) is an external dependency that is not
part of the repository's sources; those parts are modelled from the
specification (SHA-256 checksum over the entropy bytes, the fixed
English vocabulary) and are marked `Modelled from the spec:` below.

Machine integers of the source (`u8`, `u16`, `usize`) are represented
as `Nat`; every arithmetic step of the source stays within the machine
range (indices are < 2048, bit shifts are ≤ 10 or ≤ 7, bytes are
accumulated from 8 bits), and SHA-256 words are reduced `% 2^32`
explicitly, so no overflow wrapping is lost by this representation.
-/

/-! ## Bit packing (from `decode_mnemonic_ignore_checksum`, main.rs lines 90–119) -/

/-- The 11 bits of a word index, most significant first: the source sets
`bits[i*11 + j] = (index & (1 << (10 - j))) != 0` for `j = 0..11`. -/
def indexBits (index : Nat) : List Bool :=
  (List.range 11).map (fun j => (index &&& (1 <<< (10 - j))) != 0)

/-- The full bit string of a phrase: each index contributes its 11 bits
in phrase order (the source writes index `i` at positions `i*11..i*11+10`). -/
def packIndices (indices : List Nat) : List Bool :=
  indices.flatMap indexBits

/-- Splitting a list into consecutive chunks of size `n` (fuel-driven so
that the recursion is structural; `chunksOf` supplies `l.length` as fuel,
which is always enough). Mirrors Rust's `slice::chunks`. -/
def chunksFuel (n : Nat) : Nat → List α → List (List α)
  | 0, _ => []
  | _, [] => []
  | fuel + 1, x :: xs => ((x :: xs).take n) :: chunksFuel n fuel ((x :: xs).drop n)

/-- `bits.chunks(n)` of the source: consecutive chunks of size `n`, the
last one possibly shorter. -/
def chunksOf (n : Nat) (l : List α) : List (List α) :=
  chunksFuel n l.length l

/-- One byte from (at most 8) bits, most significant first: the source
does `byte |= 1 << (7 - j)` for each set bit `j` of the chunk.  A short
trailing chunk leaves the low-order bits zero. -/
def byteOfBits (chunk : List Bool) : Nat :=
  chunk.enum.foldl (fun byte jb => if jb.2 then byte ||| (1 <<< (7 - jb.1)) else byte) 0

/-- `bits.chunks(8)` packed into bytes, exactly as the source's final
loop in `decode_mnemonic_ignore_checksum`. -/
def bitsToBytes (bits : List Bool) : List Nat :=
  (chunksOf 8 bits).map byteOfBits

/-! ## Vocabulary (external `bip39` crate) -/

/-- Modelled from the spec: the fixed 2048-word English vocabulary of
`Language::English.word_list()` lives in the external `bip39` crate and
is excluded from the repository's sources.  We embed the initial
alphabetical fragment of the standard BIP39 English list (indices 0–11),
which contains every concrete word the specification mentions
("abandon" = 0, "about" = 3); lookups of words outside the fragment
return `none`, exactly as the real table does for non-words such as
"zzzzz".  All general theorems depend on the table only through
`lookupWord`. -/
def englishWordlist : List String :=
  ["abandon", "ability", "able", "about", "above", "absent",
   "absorb", "abstract", "absurd", "abuse", "access", "accident"]

/-- `wordlist.iter().position(|&w| w == *word)` of the source. -/
def lookupWord (w : String) : Option Nat :=
  englishWordlist.findIdx? (fun x => x == w)

/-! ## Tokenization (`split_whitespace`) -/

/-- Whitespace recognised by the tokenizer (Rust `char::is_whitespace`
restricted to the ASCII whitespace actually reachable from the line-based
input: line readers strip `\n`/`\r`, leaving spaces and tabs between
words). -/
def isWsChar (c : Char) : Bool :=
  c = ' ' || c = '\t' || c = '\n' || c = '\r'

/-- Accumulating splitter: `acc` holds the current word reversed. -/
def splitWsAux : List Char → List Char → List String
  | [], acc => if acc.isEmpty then [] else [String.mk acc.reverse]
  | c :: cs, acc =>
    if isWsChar c then
      if acc.isEmpty then splitWsAux cs []
      else String.mk acc.reverse :: splitWsAux cs []
    else splitWsAux cs (c :: acc)

/-- `mnemonic_str.split_whitespace().collect()` of the source: maximal
runs of non-whitespace characters, empty tokens dropped. -/
def tokenize (s : String) : List String :=
  splitWsAux s.data []

/-! ## Word resolution and word-count check -/

/-- The resolution loop of `decode_mnemonic_ignore_checksum`: convert
every word to its index, failing on the first unknown word. -/
def resolveWords : List String → Option (List Nat)
  | [] => some []
  | w :: ws =>
    match lookupWord w with
    | none => none
    | some i =>
      match resolveWords ws with
      | none => none
      | some is => some (i :: is)

/-- `[12, 15, 18, 21, 24].contains(&word_count)` of the source. -/
def validWordCount (n : Nat) : Bool :=
  n == 12 || n == 15 || n == 18 || n == 21 || n == 24

/-! ## Diagnostic messages (`analyze_mnemonic`, main.rs lines 50–71) -/

/-- Rust `{:?}` rendering of a vector of words, e.g. `["zzzzz"]`
(the words are plain ASCII, so `Debug` adds only the quotes). -/
def debugWordList (ws : List String) : String :=
  "[" ++ String.intercalate ", " (ws.map (fun w => "\"" ++ w ++ "\"")) ++ "]"

/-- The unknown-words diagnostic of `analyze_mnemonic` (at most the
first three invalid words are shown). -/
def invalidWordsMsg (ws : List String) : String :=
  "Неверные слова (не BIP39 English): " ++ debugWordList ws ++ ". Попробованы все языки BIP39"

/-- The wrong-word-count diagnostic of `analyze_mnemonic`. -/
def wordCountMsg (n : Nat) : String :=
  "Неверное количество слов: " ++ Nat.repr n ++ " (BIP39 требует 12/15/18/21/24 слов)"

/-- The checksum catch-all diagnostic of `analyze_mnemonic`. -/
def checksumMsg : String :=
  "Неверная контрольная сумма BIP39 (попробованы все языки)"

/-- The unsupported-word-count error of `decode_mnemonic_ignore_checksum`
(a different string from `analyze_mnemonic`'s count message). -/
def unsupportedCountMsg (n : Nat) : String :=
  "Неподдерживаемое количество слов: " ++ Nat.repr n

/-- `analyze_mnemonic` of the source: classify a failing phrase by
priority — unknown words first, then invalid word count, else the
checksum catch-all. -/
def analyze_mnemonic (s : String) : String :=
  let words := tokenize s
  let invalid := words.filter (fun w => (lookupWord w).isNone)
  if !invalid.isEmpty then invalidWordsMsg (invalid.take 3)
  else if !validWordCount words.length then wordCountMsg words.length
  else checksumMsg

/-! ## Lenient decoding (`decode_mnemonic_ignore_checksum`, main.rs lines 73–122) -/

/-- The index-level core of `decode_mnemonic_ignore_checksum`: after all
words resolved, check the word count and pack the entire bit string
(checksum bits included) into bytes by ceiling division. -/
def decode_indices_ignore_checksum (indices : List Nat) : Except String (List Nat) :=
  if validWordCount indices.length then .ok (bitsToBytes (packIndices indices))
  else .error (unsupportedCountMsg indices.length)

/-- `decode_mnemonic_ignore_checksum` of the source: resolve every word
(an unknown word yields the `analyze_mnemonic` diagnostic), then decode
at the index level. -/
def decode_mnemonic_ignore_checksum (s : String) : Except String (List Nat) :=
  match resolveWords (tokenize s) with
  | none => .error (analyze_mnemonic s)
  | some indices => decode_indices_ignore_checksum indices

/-! ## SHA-256

Modelled from the spec: the strict decoding path of the source calls the
external `bip39` crate (`Mnemonic::from_str` / `to_entropy`), whose code
is not part of the repository.  The spec (§4.3 step 5, §3) prescribes
"compute SHA-256 of the Entropy Buffer; compare its first CS bits to the
checksum segment", so the standard FIPS 180-4 SHA-256 is embedded here
over byte lists, with 32-bit words as `Nat` reduced `% 2^32`. -/

/-- `2^32`, the modulus of SHA-256 word arithmetic. -/
def pow32 : Nat := 4294967296

/-- 32-bit modular addition. -/
def add32 (a b : Nat) : Nat := (a + b) % pow32

/-- 32-bit right rotation. -/
def rotr32 (n x : Nat) : Nat := ((x >>> n) ||| (x <<< (32 - n))) % pow32

/-- SHA-256 `Ch(x,y,z) = (x ∧ y) ⊕ (¬x ∧ z)` (complement within 32 bits). -/
def shaCh (x y z : Nat) : Nat := (x &&& y) ^^^ ((x ^^^ 4294967295) &&& z)

/-- SHA-256 `Maj(x,y,z)`. -/
def shaMaj (x y z : Nat) : Nat := (x &&& y) ^^^ (x &&& z) ^^^ (y &&& z)

/-- SHA-256 `Σ₀`. -/
def bigSigma0 (x : Nat) : Nat := rotr32 2 x ^^^ rotr32 13 x ^^^ rotr32 22 x

/-- SHA-256 `Σ₁`. -/
def bigSigma1 (x : Nat) : Nat := rotr32 6 x ^^^ rotr32 11 x ^^^ rotr32 25 x

/-- SHA-256 `σ₀`. -/
def smallSigma0 (x : Nat) : Nat := rotr32 7 x ^^^ rotr32 18 x ^^^ (x >>> 3)

/-- SHA-256 `σ₁`. -/
def smallSigma1 (x : Nat) : Nat := rotr32 17 x ^^^ rotr32 19 x ^^^ (x >>> 10)

/-- The 64 SHA-256 round constants (FIPS 180-4 §4.2.2, in decimal). -/
def shaK : List Nat :=
  [1116352408, 1899447441, 3049323471, 3921009573, 961987163, 1508970993,
   2453635748, 2870763221, 3624381080, 310598401, 607225278, 1426881987,
   1925078388, 2162078206, 2614888103, 3248222580, 3835390401, 4022224774,
   264347078, 604807628, 770255983, 1249150122, 1555081692, 1996064986,
   2554220882, 2821834349, 2952996808, 3210313671, 3336571891, 3584528711,
   113926993, 338241895, 666307205, 773529912, 1294757372, 1396182291,
   1695183700, 1986661051, 2177026350, 2456956037, 2730485921, 2820302411,
   3259730800, 3345764771, 3516065817, 3600352804, 4094571909, 275423344,
   430227734, 506948616, 659060556, 883997877, 958139571, 1322822218,
   1537002063, 1747873779, 1955562222, 2024104815, 2227730452, 2361852424,
   2428436474, 2756734187, 3204031479, 3329325298]

/-- The SHA-256 initial hash value (FIPS 180-4 §5.3.3, in decimal). -/
def shaH0 : List Nat :=
  [1779033703, 3144134277, 1013904242, 2773480762,
   1359893119, 2600822924, 528734635, 1541459225]

/-- A 32-bit word as four big-endian bytes. -/
def be32 (n : Nat) : List Nat :=
  [(n >>> 24) % 256, (n >>> 16) % 256, (n >>> 8) % 256, n % 256]

/-- A 64-bit length as eight big-endian bytes. -/
def be64 (n : Nat) : List Nat :=
  [(n >>> 56) % 256, (n >>> 48) % 256, (n >>> 40) % 256, (n >>> 32) % 256,
   (n >>> 24) % 256, (n >>> 16) % 256, (n >>> 8) % 256, n % 256]

/-- Four big-endian bytes as a 32-bit word. -/
def word32OfBytes (bs : List Nat) : Nat :=
  bs.foldl (fun acc b => 256 * acc + b) 0

/-- SHA-256 padding: `0x80`, zeros to 56 mod 64, then the bit length as
a big-endian 64-bit integer. -/
def shaPad (msg : List Nat) : List Nat :=
  msg ++ 128 :: List.replicate ((119 - msg.length % 64) % 64) 0 ++ be64 (8 * msg.length)

/-- Message-schedule extension: append `fuel` further words
`σ₁(w[t-2]) + w[t-7] + σ₀(w[t-15]) + w[t-16]`. -/
def extendW (w : List Nat) : Nat → List Nat
  | 0 => w
  | fuel + 1 =>
    extendW
      (w ++ [add32 (add32 (smallSigma1 (w.getD (w.length - 2) 0)) (w.getD (w.length - 7) 0))
              (add32 (smallSigma0 (w.getD (w.length - 15) 0)) (w.getD (w.length - 16) 0))])
      fuel

/-- One round of the SHA-256 compression function on the working state
`(a,b,c,d,e,f,g,h)` with round constant `k` and schedule word `w`. -/
def shaRound (st : Nat × Nat × Nat × Nat × Nat × Nat × Nat × Nat) (k w : Nat) :
    Nat × Nat × Nat × Nat × Nat × Nat × Nat × Nat :=
  match st with
  | (a, b, c, d, e, f2, g, h) =>
    let t1 := add32 h (add32 (bigSigma1 e) (add32 (shaCh e f2 g) (add32 k w)))
    let t2 := add32 (bigSigma0 a) (shaMaj a b c)
    (add32 t1 t2, a, b, c, add32 d t1, e, f2, g)

/-- Add the final working state back onto the incoming hash state. -/
def shaFinish (hs : List Nat) (st : Nat × Nat × Nat × Nat × Nat × Nat × Nat × Nat) :
    List Nat :=
  match st with
  | (a, b, c, d, e, f2, g, h) =>
    [add32 (hs.getD 0 0) a, add32 (hs.getD 1 0) b, add32 (hs.getD 2 0) c,
     add32 (hs.getD 3 0) d, add32 (hs.getD 4 0) e, add32 (hs.getD 5 0) f2,
     add32 (hs.getD 6 0) g, add32 (hs.getD 7 0) h]

/-- Compress one 64-byte block into the running 8-word hash state. -/
def shaCompress (hs : List Nat) (block : List Nat) : List Nat :=
  let w := extendW ((chunksOf 4 block).map word32OfBytes) 48
  let init := (hs.getD 0 0, hs.getD 1 0, hs.getD 2 0, hs.getD 3 0,
               hs.getD 4 0, hs.getD 5 0, hs.getD 6 0, hs.getD 7 0)
  shaFinish hs ((shaK.zip w).foldl (fun st kw => shaRound st kw.1 kw.2) init)

/-- SHA-256 of a byte list, as a 32-byte list. -/
def sha256 (msg : List Nat) : List Nat :=
  ((chunksOf 64 (shaPad msg)).foldl shaCompress shaH0).flatMap be32

/-! ## Strict decoding

Modelled from the spec: `try_bip39_english` of the source delegates to
the external `bip39` crate.  Per spec §4.3: tokenize, resolve every word,
validate the word count, pack the bit string, split it into an entropy
segment of `ENT = 32*word_count/3` bits and a checksum segment of
`CS = word_count/3` bits, pack the entropy segment into bytes, and
compare the first CS bits of SHA-256(entropy) with the checksum
segment. -/

/-- The error taxonomy of the spec (§7). -/
inductive Bip39Error where
  | unknownWord (w : String)
  | invalidWordCount (n : Nat)
  | checksumMismatch
deriving DecidableEq

/-- The 8 bits of a byte, most significant first. -/
def byteBits (b : Nat) : List Bool :=
  (List.range 8).map (fun j => b.testBit (7 - j))

/-- A byte buffer as a bit string, most significant bit of each byte
first. -/
def bytesToBits (bytes : List Nat) : List Bool :=
  bytes.flatMap byteBits

/-- An 11-bit group read most-significant-bit first, the inverse of
`indexBits` on 11-bit values. -/
def indexOfBits (chunk : List Bool) : Nat :=
  chunk.foldl (fun acc b => 2 * acc + (if b then 1 else 0)) 0

/-- A bit string split into 11-bit groups, each read as a word index. -/
def bitsToIndices (bits : List Bool) : List Nat :=
  (chunksOf 11 bits).map indexOfBits

/-- Modelled from the spec: the index-level strict decoder of the
`bip39` crate (spec §4.3 steps 3–5): validate the word count, split the
packed bit string into entropy and checksum segments, and require the
checksum segment to equal the leading `word_count/3` bits of
SHA-256(entropy). -/
def strictDecodeIndices (indices : List Nat) : Except Bip39Error (List Nat) :=
  let n := indices.length
  if validWordCount n then
    let bits := packIndices indices
    let entBits := bits.take (32 * n / 3)
    let csBits := bits.drop (32 * n / 3)
    let entropy := bitsToBytes entBits
    if csBits = (bytesToBits (sha256 entropy)).take (n / 3) then .ok entropy
    else .error .checksumMismatch
  else .error (.invalidWordCount n)

/-- `try_bip39_english` of the source (main.rs lines 42–48): standard
BIP39 English decoding, `None` on any failure.  The word-resolution step
(spec §4.3 step 2) fails on the first unknown word. -/
def try_bip39_english (s : String) : Option (List Nat) :=
  match resolveWords (tokenize s) with
  | none => none
  | some indices => (strictDecodeIndices indices).toOption

/-- Modelled from the spec: standard BIP39 mnemonic generation (spec §8
"Round-trip", Glossary) — the bit string is the entropy bits followed by
the leading `ENT/32` bits of SHA-256(entropy), read in 11-bit groups as
word indices. -/
def generateIndices (entropy : List Nat) : List Nat :=
  bitsToIndices
    (bytesToBits entropy ++ (bytesToBits (sha256 entropy)).take (8 * entropy.length / 32))

/-! ## Output formatting and `process_mnemonic` (main.rs lines 124–149) -/

/-- One lowercase hexadecimal digit. -/
def hexDigit (n : Nat) : Char :=
  if n < 10 then Char.ofNat (48 + n) else Char.ofNat (87 + n)

/-- `hex::encode` of the source: lowercase hex, two digits per byte. -/
def hexEncode (bytes : List Nat) : String :=
  String.mk (bytes.flatMap (fun b => [hexDigit (b / 16), hexDigit (b % 16)]))

/-- Rust `format!("{:?}", entropy)` on a `Vec<u8>`: a bracketed
comma-separated decimal byte list. -/
def formatBytes (bytes : List Nat) : String :=
  "[" ++ String.intercalate ", " (bytes.map Nat.repr) ++ "]"

/-- The entropy rendering both branches of `process_mnemonic` perform:
hex when `hex` is set, else the `{:?}` byte list. -/
def renderEntropy (hex : Bool) (entropy : List Nat) : String :=
  if hex then hexEncode entropy else formatBytes entropy

/-- `process_mnemonic` of the source: try strict BIP39 English first;
on failure use the ignore-checksum decoder when the flag is set, else
report the `analyze_mnemonic` diagnostic. -/
def process_mnemonic (s : String) (hex ignore_checksum : Bool) : Except String String :=
  match try_bip39_english s with
  | some entropy => .ok (renderEntropy hex entropy)
  | none =>
    if ignore_checksum then
      match decode_mnemonic_ignore_checksum s with
      | .error e => .error e
      | .ok entropy => .ok (renderEntropy hex entropy)
    else .error (analyze_mnemonic s)

/-! ## Batch model (main.rs `main`, lines 151–323) -/

/-- The per-phrase outcome collected by `main`. -/
inductive ProcessResult where
  | success (entropy_str : String)
  | error (message : String) (mnemonic : String)
deriving DecidableEq

/-- The closure body of the parallel map in `main` (lines 209–216). -/
def runOne (hex ignore_checksum : Bool) (s : String) : ProcessResult :=
  match process_mnemonic s hex ignore_checksum with
  | .ok entropy_str => .success entropy_str
  | .error e => .error e s

/-- The index-tagged outcomes of the batch, in input order
(`.enumerate()` of the source). -/
def tagResults (ms : List String) (hex ic : Bool) : List (Nat × ProcessResult) :=
  ms.enum.map (fun p => (p.1, runOne hex ic p.2))

/-- `sorted_results.sort_by_key(|(idx, _)| *idx)` of the source: a
stable sort by the original index (modelled by stable insertion sort;
on index-tagged batch results the keys are pairwise distinct, so every
correct sort produces this list). -/
def sortResults (rs : List (Nat × ProcessResult)) : List (Nat × ProcessResult) :=
  List.insertionSort (fun a b => a.1 ≤ b.1) rs

/-- The deterministic pipeline of `main`: tag, then sort by index. -/
def batchResults (ms : List String) (hex ic : Bool) : List (Nat × ProcessResult) :=
  sortResults (tagResults ms hex ic)

/-- `success_results` of the source: the rendered entropies of the
successful outcomes, in result order. -/
def successResults (rs : List (Nat × ProcessResult)) : List String :=
  rs.filterMap (fun p =>
    match p.2 with
    | .success entropy_str => some entropy_str
    | .error _ _ => none)

/-- `error_results` of the source: `(mnemonic, message)` pairs of the
failing outcomes, in result order. -/
def errorResults (rs : List (Nat × ProcessResult)) : List (String × String) :=
  rs.filterMap (fun p =>
    match p.2 with
    | .success _ => none
    | .error m mn => some (mn, m))

/-- The exit decision of `main` (lines 318–322): failure exit exactly
when there are errors, no successes, and `skip_invalid` is not set. -/
def exitsWithFailure (ms : List String) (hex ic skip_invalid : Bool) : Bool :=
  let rs := batchResults ms hex ic
  !(errorResults rs).isEmpty && (successResults rs).isEmpty && !skip_invalid

/-- The advisory decision of `main` (lines 307–316): when `skip_invalid`
is not set and errors exist, emit the "possibly not BIP39" advisory if
the error rate exceeds 50%.  The source computes
`(errors as f64 / total as f64) * 100.0 > 50.0`; the comparison is
modelled exactly over `ℚ` (for any batch size below `2^50` the `f64`
computation decides the same way, the quotient being at least `2^-51`
away from `1/2` whenever it differs from it). -/
def showsAdvisory (ms : List String) (hex ic skip_invalid : Bool) : Bool :=
  let rs := batchResults ms hex ic
  !skip_invalid && !(errorResults rs).isEmpty &&
    decide ((((errorResults rs).length : ℚ) / (ms.length : ℚ)) * 100 > 50)

/-- The canonical all-zero-entropy test phrase. -/
def zeroPhrase : String :=
  "abandon abandon abandon abandon abandon abandon abandon abandon abandon abandon abandon about"

/-! ## Spec-side packing definitions (for the refinement claim) -/

/-- Modelled from the spec (§4.2, stated in the spec's own terms for
comparison with the source's packing): `pack` concatenates each index
as 11 bits, most significant first, in phrase order — bit `j` of a
group is bit `10 - j` of the index. -/
def specIndexBits (index : Nat) : List Bool :=
  (List.range 11).map (fun j => index.testBit (10 - j))

/-- Modelled from the spec (§4.2): the concatenation of all 11-bit
groups in phrase order. -/
def specPack (indices : List Nat) : List Bool :=
  indices.flatMap specIndexBits

/-- Modelled from the spec (§4.2): a byte takes 8 bits, most significant
first — bit `j` weighs `2^(7-j)` — and a trailing partial byte is
zero-padded on its least-significant end (absent bits weigh 0). -/
def specByteOfBits (chunk : List Bool) : Nat :=
  (List.range 8).foldl (fun acc j => acc + (if chunk.getD j false then 2 ^ (7 - j) else 0)) 0

/-- Modelled from the spec (§4.2): `bitsToBytes` packs 8 bits per byte. -/
def specBitsToBytes (bits : List Bool) : List Nat :=
  (chunksOf 8 bits).map specByteOfBits

/-- Flipping the bit at position `i` of a bit string. -/
def flipBit (bits : List Bool) (i : Nat) : List Bool :=
  bits.set i (!(bits.getD i false))

/-! ## Chunking lemmas -/

theorem chunksFuel_nil (n fuel : Nat) : chunksFuel n fuel ([] : List α) = [] := by
  cases fuel <;> rfl

theorem chunksFuel_cons (n fuel : Nat) (x : α) (xs : List α) :
    chunksFuel n (fuel + 1) (x :: xs)
      = (x :: xs).take n :: chunksFuel n fuel ((x :: xs).drop n) := rfl

theorem chunksFuel_congr (n : Nat) (hn : 0 < n) :
    ∀ fuel fuel₂ (l : List α), l.length ≤ fuel → l.length ≤ fuel₂ →
      chunksFuel n fuel l = chunksFuel n fuel₂ l := by
  intro fuel
  induction fuel with
  | zero =>
    intro fuel₂ l hl _
    have hnil : l = [] := List.length_eq_zero.mp (Nat.le_zero.mp hl)
    subst hnil
    rw [chunksFuel_nil, chunksFuel_nil]
  | succ fuel ih =>
    intro fuel₂ l hl hl₂
    cases l with
    | nil => rw [chunksFuel_nil, chunksFuel_nil]
    | cons x xs =>
      cases fuel₂ with
      | zero => simp at hl₂
      | succ fuel₂ =>
        rw [chunksFuel_cons, chunksFuel_cons]
        congr 1
        apply ih
        · simp only [List.length_drop, List.length_cons] at *
          omega
        · simp only [List.length_drop, List.length_cons] at *
          omega

theorem chunksOf_nil (n : Nat) : chunksOf n ([] : List α) = [] := rfl

theorem chunksOf_cons_eq (n : Nat) (hn : 0 < n) (x : α) (xs : List α) :
    chunksOf n (x :: xs) = (x :: xs).take n :: chunksOf n ((x :: xs).drop n) := by
  unfold chunksOf
  rw [show (x :: xs).length = xs.length + 1 from rfl, chunksFuel_cons]
  congr 1
  apply chunksFuel_congr n hn
  · simp only [List.length_drop, List.length_cons]
    omega
  · exact Nat.le_refl _

theorem chunksOf_append (n : Nat) (hn : 0 < n) (l₁ l₂ : List α) (h : l₁.length = n) :
    chunksOf n (l₁ ++ l₂) = l₁ :: chunksOf n l₂ := by
  cases l₁ with
  | nil => simp at h; omega
  | cons x xs =>
    rw [List.cons_append, chunksOf_cons_eq n hn, ← List.cons_append,
        List.take_left' h, List.drop_left' h]

theorem chunksOf_short (n : Nat) (l : List α) (h0 : l ≠ []) (h : l.length ≤ n) :
    chunksOf n l = [l] := by
  cases l with
  | nil => exact absurd rfl h0
  | cons x xs =>
    have hn : 0 < n := by
      simp only [List.length_cons] at h
      omega
    rw [chunksOf_cons_eq n hn, List.take_of_length_le h, List.drop_of_length_le h, chunksOf_nil]

theorem length_chunksFuel (n : Nat) (hn : 0 < n) :
    ∀ fuel (l : List α), l.length ≤ fuel →
      (chunksFuel n fuel l).length = (l.length + n - 1) / n := by
  intro fuel
  induction fuel with
  | zero =>
    intro l hl
    have hnil : l = [] := List.length_eq_zero.mp (Nat.le_zero.mp hl)
    subst hnil
    rw [chunksFuel_nil]
    simp [Nat.div_eq_of_lt (by omega : n - 1 < n)]
  | succ fuel ih =>
    intro l hl
    cases l with
    | nil =>
      rw [chunksFuel_nil]
      simp [Nat.div_eq_of_lt (by omega : n - 1 < n)]
    | cons x xs =>
      rw [chunksFuel_cons]
      simp only [List.length_cons] at hl
      have hdl : ((x :: xs).drop n).length = xs.length + 1 - n := by
        simp
      have hfuel : ((x :: xs).drop n).length ≤ fuel := by
        rw [hdl]; omega
      simp only [List.length_cons, ih ((x :: xs).drop n) hfuel, hdl]
      rcases Nat.le_total (xs.length + 1) n with hle | hge
      · have h1 : xs.length + 1 - n = 0 := by omega
        have h2 : (0 + n - 1) / n = 0 := Nat.div_eq_of_lt (by omega)
        have h3 : (xs.length + 1 + n - 1) / n = 1 :=
          Nat.div_eq_of_lt_le (by omega) (by omega)
        rw [h1, h2, h3]
      · have h1 : xs.length + 1 - n + n - 1 = xs.length := by omega
        have h2 : xs.length + 1 + n - 1 = xs.length + n := by omega
        rw [h1, h2, Nat.add_div_right _ hn]

theorem length_chunksOf (n : Nat) (hn : 0 < n) (l : List α) :
    (chunksOf n l).length = (l.length + n - 1) / n :=
  length_chunksFuel n hn l.length l (Nat.le_refl _)

theorem length_le_of_mem_chunksFuel (n : Nat) :
    ∀ fuel (l : List α) c, c ∈ chunksFuel n fuel l → c.length ≤ n := by
  intro fuel
  induction fuel with
  | zero => intro l c hc; rw [show chunksFuel n 0 l = [] from by cases l <;> rfl] at hc; simp at hc
  | succ fuel ih =>
    intro l c hc
    cases l with
    | nil => rw [chunksFuel_nil] at hc; simp at hc
    | cons x xs =>
      rw [chunksFuel_cons] at hc
      rcases List.mem_cons.mp hc with h | h
      · subst h
        simp [List.length_take]
      · exact ih _ c h

theorem length_le_of_mem_chunksOf (n : Nat) (l : List α) (c : List α)
    (hc : c ∈ chunksOf n l) : c.length ≤ n :=
  length_le_of_mem_chunksFuel n l.length l c hc

/-! ## Length lemmas for packing -/

theorem length_indexBits (i : Nat) : (indexBits i).length = 11 := by
  simp [indexBits]

theorem length_packIndices (is : List Nat) : (packIndices is).length = 11 * is.length := by
  induction is with
  | nil => rfl
  | cons i is ih =>
    simp only [packIndices, List.flatMap_cons, List.length_append, length_indexBits,
      List.length_cons] at *
    omega

theorem length_bitsToBytes (bits : List Bool) :
    (bitsToBytes bits).length = (bits.length + 7) / 8 := by
  unfold bitsToBytes
  rw [List.length_map, length_chunksOf 8 (by omega)]
  omega

theorem length_byteBits (b : Nat) : (byteBits b).length = 8 := by
  simp [byteBits]

theorem length_bytesToBits (bytes : List Nat) :
    (bytesToBits bytes).length = 8 * bytes.length := by
  induction bytes with
  | nil => rfl
  | cons b bs ih =>
    simp only [bytesToBits, List.flatMap_cons, List.length_append, length_byteBits,
      List.length_cons] at *
    omega

theorem length_bitsToIndices (bits : List Bool) :
    (bitsToIndices bits).length = (bits.length + 10) / 11 := by
  unfold bitsToIndices
  rw [List.length_map, length_chunksOf 11 (by omega)]
  omega

/-! ## Round-trip lemmas -/

theorem indexBits_indexOfBits (c : List Bool) (hc : c.length = 11) :
    indexBits (indexOfBits c) = c := by
  rcases c with _ | ⟨b0, c⟩; · simp at hc
  rcases c with _ | ⟨b1, c⟩; · simp at hc
  rcases c with _ | ⟨b2, c⟩; · simp at hc
  rcases c with _ | ⟨b3, c⟩; · simp at hc
  rcases c with _ | ⟨b4, c⟩; · simp at hc
  rcases c with _ | ⟨b5, c⟩; · simp at hc
  rcases c with _ | ⟨b6, c⟩; · simp at hc
  rcases c with _ | ⟨b7, c⟩; · simp at hc
  rcases c with _ | ⟨b8, c⟩; · simp at hc
  rcases c with _ | ⟨b9, c⟩; · simp at hc
  rcases c with _ | ⟨b10, c⟩; · simp at hc
  rcases c with _ | ⟨b11, c⟩
  · revert b0 b1 b2 b3 b4 b5 b6 b7 b8 b9 b10
    decide
  · simp at hc

theorem packIndices_bitsToIndices (k : Nat) :
    ∀ bits : List Bool, bits.length = 11 * k → packIndices (bitsToIndices bits) = bits := by
  induction k with
  | zero =>
    intro bits h
    have : bits = [] := List.length_eq_zero.mp (by omega)
    subst this
    rfl
  | succ k ih =>
    intro bits h
    have htake : (bits.take 11).length = 11 := by
      simp [List.length_take]
      omega
    have hdrop : (bits.drop 11).length = 11 * k := by
      simp
      omega
    conv_lhs => rw [← List.take_append_drop 11 bits]
    conv_rhs => rw [← List.take_append_drop 11 bits]
    rw [bitsToIndices, chunksOf_append 11 (by omega) _ _ htake, List.map_cons]
    show indexBits (indexOfBits (bits.take 11)) ++ packIndices (bitsToIndices (bits.drop 11)) = _
    rw [indexBits_indexOfBits _ htake, ih _ hdrop]

set_option maxRecDepth 4096 in
theorem byteOfBits_byteBits (b : Nat) (hb : b < 256) : byteOfBits (byteBits b) = b := by
  have h : ∀ x : Fin 256, byteOfBits (byteBits x.val) = x.val := by decide
  exact h ⟨b, hb⟩

theorem bitsToBytes_bytesToBits (bytes : List Nat) (h : ∀ b ∈ bytes, b < 256) :
    bitsToBytes (bytesToBits bytes) = bytes := by
  induction bytes with
  | nil => rfl
  | cons b bs ih =>
    show (chunksOf 8 (byteBits b ++ bs.flatMap byteBits)).map byteOfBits = b :: bs
    rw [chunksOf_append 8 (by omega) _ _ (length_byteBits b), List.map_cons,
        byteOfBits_byteBits b (h b (List.mem_cons_self b bs))]
    congr 1
    exact ih (fun x hx => h x (List.mem_cons_of_mem b hx))

/-! ## Resolution lemmas -/

theorem resolveWords_length : ∀ (ws : List String) (is : List Nat),
    resolveWords ws = some is → is.length = ws.length := by
  intro ws
  induction ws with
  | nil =>
    intro is h
    simp only [resolveWords, Option.some.injEq] at h
    subst h
    rfl
  | cons w ws ih =>
    intro is h
    unfold resolveWords at h
    cases hl : lookupWord w with
    | none => rw [hl] at h; exact absurd h (by simp)
    | some i =>
      rw [hl] at h
      cases hr : resolveWords ws with
      | none => rw [hr] at h; exact absurd h (by simp)
      | some is2 =>
        rw [hr] at h
        simp only [Option.some.injEq] at h
        subst h
        simp [ih is2 hr]

theorem resolveWords_eq_none_iff : ∀ ws : List String,
    resolveWords ws = none ↔ ∃ w ∈ ws, (lookupWord w).isNone = true := by
  intro ws
  induction ws with
  | nil => simp [resolveWords]
  | cons w ws ih =>
    unfold resolveWords
    cases hl : lookupWord w with
    | none => simp [hl]
    | some i =>
      cases hr : resolveWords ws with
      | none =>
        simp only [true_iff]
        obtain ⟨x, hx, hxn⟩ := ih.mp hr
        exact ⟨x, List.mem_cons_of_mem w hx, hxn⟩
      | some is =>
        simp only [Option.some.injEq, reduceCtorEq, false_iff, not_exists, not_and]
        intro x hx
        rcases List.mem_cons.mp hx with h | h
        · subst h; simp [hl]
        · intro hxn
          have : resolveWords ws = none := ih.mpr ⟨x, h, hxn⟩
          rw [this] at hr
          exact absurd hr (by simp)

theorem resolveWords_isSome (ws : List String) (h : ∀ w ∈ ws, (lookupWord w).isSome) :
    ∃ is, resolveWords ws = some is := by
  cases hr : resolveWords ws with
  | none =>
    obtain ⟨w, hw, hwn⟩ := (resolveWords_eq_none_iff ws).mp hr
    have := h w hw
    rw [Option.isNone_iff_eq_none] at hwn
    rw [hwn] at this
    exact absurd this (by simp)
  | some is => exact ⟨is, rfl⟩

/-! ## Claim theorems -/

/-- C1: for every phrase whose tokens all resolve in the English
vocabulary and whose word count is one of 12/15/18/21/24, the lenient
(ignore-checksum) decoder succeeds and returns the entire packed bit
string — checksum bits included — as bytes, of exactly
`ceil(word_count*11/8)` bytes (17 bytes for 12 words). -/
theorem lenient_decode_returns_full_bitstring (s : String)
    (hwords : ∀ w ∈ tokenize s, (lookupWord w).isSome)
    (hcount : validWordCount (tokenize s).length = true) :
    ∃ indices : List Nat,
      resolveWords (tokenize s) = some indices ∧
      decode_mnemonic_ignore_checksum s = .ok (bitsToBytes (packIndices indices)) ∧
      (bitsToBytes (packIndices indices)).length = ((tokenize s).length * 11 + 7) / 8 := by
  obtain ⟨is, his⟩ := resolveWords_isSome _ hwords
  have hlen : is.length = (tokenize s).length := resolveWords_length _ _ his
  refine ⟨is, his, ?_, ?_⟩
  · unfold decode_mnemonic_ignore_checksum
    rw [his]
    show decode_indices_ignore_checksum is = _
    unfold decode_indices_ignore_checksum
    rw [hlen, hcount]
    simp
  · rw [length_bitsToBytes, length_packIndices, hlen]
    omega

set_option maxRecDepth 10000 in
/-- C1 witness: the 12-word zero phrase has all its words in the
vocabulary, and lenient decoding yields the full 17-byte buffer. -/
theorem lenient_decode_returns_full_bitstring_witness :
    (∀ w ∈ tokenize zeroPhrase, (lookupWord w).isSome) ∧
    validWordCount (tokenize zeroPhrase).length = true ∧
    (decode_mnemonic_ignore_checksum zeroPhrase).toOption.map List.length = some 17 ∧
    (∃ indices : List Nat,
      resolveWords (tokenize zeroPhrase) = some indices ∧
      decode_mnemonic_ignore_checksum zeroPhrase = .ok (bitsToBytes (packIndices indices)) ∧
      (bitsToBytes (packIndices indices)).length = ((tokenize zeroPhrase).length * 11 + 7) / 8) :=
  ⟨by decide, by decide, by decide,
   lenient_decode_returns_full_bitstring zeroPhrase (by decide) (by decide)⟩

theorem indexBits_eq_spec (i : Nat) : indexBits i = specIndexBits i := by
  unfold indexBits specIndexBits
  refine List.map_congr_left ?_
  intro j _
  rw [Nat.one_shiftLeft, Nat.and_two_pow]
  cases h : i.testBit (10 - j) <;> simp [h]

theorem packIndices_eq_spec (indices : List Nat) : packIndices indices = specPack indices := by
  unfold packIndices specPack
  rw [show indexBits = specIndexBits from funext indexBits_eq_spec]

theorem byteOfBits_eq_spec (c : List Bool) (hc : c.length ≤ 8) :
    byteOfBits c = specByteOfBits c := by
  rcases c with _ | ⟨b0, c⟩; · decide
  rcases c with _ | ⟨b1, c⟩; · revert b0; decide
  rcases c with _ | ⟨b2, c⟩; · revert b0 b1; decide
  rcases c with _ | ⟨b3, c⟩; · revert b0 b1 b2; decide
  rcases c with _ | ⟨b4, c⟩; · revert b0 b1 b2 b3; decide
  rcases c with _ | ⟨b5, c⟩; · revert b0 b1 b2 b3 b4; decide
  rcases c with _ | ⟨b6, c⟩; · revert b0 b1 b2 b3 b4 b5; decide
  rcases c with _ | ⟨b7, c⟩; · revert b0 b1 b2 b3 b4 b5 b6; decide
  rcases c with _ | ⟨b8, c⟩
  · revert b0 b1 b2 b3 b4 b5 b6 b7; decide
  · simp only [List.length_cons] at hc
    omega

theorem bitsToBytes_eq_spec (bits : List Bool) : bitsToBytes bits = specBitsToBytes bits := by
  unfold bitsToBytes specBitsToBytes
  refine List.map_congr_left ?_
  intro c hc
  exact byteOfBits_eq_spec c (length_le_of_mem_chunksOf 8 bits c hc)

/-- C10: the source's packing agrees with the spec's contract — the bit
string is the concatenation of each index's 11 bits most-significant
first in phrase order, and bytes take 8 bits each, most-significant
first, with the trailing partial byte zero-padded on its
least-significant end. -/
theorem pack_and_byte_packing_match_spec :
    (∀ indices : List Nat, packIndices indices = specPack indices) ∧
    (∀ bits : List Bool, bitsToBytes bits = specBitsToBytes bits) :=
  ⟨packIndices_eq_spec, bitsToBytes_eq_spec⟩

/-! ## Unfolding helpers for `process_mnemonic` -/

theorem process_mnemonic_of_strict_some {s : String} {entropy : List Nat} (hex ic : Bool)
    (h : try_bip39_english s = some entropy) :
    process_mnemonic s hex ic = .ok (renderEntropy hex entropy) := by
  unfold process_mnemonic
  rw [h]

theorem process_mnemonic_of_strict_none_lenient {s : String} (hex : Bool)
    (h : try_bip39_english s = none) :
    process_mnemonic s hex true = (decode_mnemonic_ignore_checksum s).map (renderEntropy hex) := by
  unfold process_mnemonic
  rw [h]
  cases hd : decode_mnemonic_ignore_checksum s <;> simp [hd, Except.map]

theorem process_mnemonic_of_strict_none_strict {s : String} (hex : Bool)
    (h : try_bip39_english s = none) :
    process_mnemonic s hex false = .error (analyze_mnemonic s) := by
  unfold process_mnemonic
  rw [h]
  simp

/-- C2: `process_mnemonic` unconditionally attempts strict BIP39 English
decoding first — a phrase that parses strictly yields the strict
checksum-stripped entropy even when the `ignore_checksum` flag is set —
and the lenient full-bit-string path (or the diagnostic) is reached only
when strict parsing fails. -/
theorem process_mnemonic_tries_strict_first (s : String) (hex ic : Bool) :
    (∀ entropy, try_bip39_english s = some entropy →
      process_mnemonic s hex ic = .ok (renderEntropy hex entropy)) ∧
    (try_bip39_english s = none → ic = true →
      process_mnemonic s hex ic = (decode_mnemonic_ignore_checksum s).map (renderEntropy hex)) ∧
    (try_bip39_english s = none → ic = false →
      process_mnemonic s hex ic = .error (analyze_mnemonic s)) := by
  refine ⟨?_, ?_, ?_⟩
  · intro entropy h
    exact process_mnemonic_of_strict_some hex ic h
  · intro h hic
    subst hic
    exact process_mnemonic_of_strict_none_lenient hex h
  · intro h hic
    subst hic
    exact process_mnemonic_of_strict_none_strict hex h

set_option maxRecDepth 10000 in
/-- C2 witness: the zero phrase is a valid strict mnemonic, and with the
ignore-checksum flag SET the strict 16-byte entropy (32 hex characters)
is returned, not the 17-byte lenient buffer. -/
theorem process_mnemonic_tries_strict_first_witness :
    try_bip39_english zeroPhrase = some (List.replicate 16 0) ∧
    process_mnemonic zeroPhrase true true = .ok (renderEntropy true (List.replicate 16 0)) ∧
    renderEntropy true (List.replicate 16 0) = "00000000000000000000000000000000" :=
  ⟨by decide,
   (process_mnemonic_tries_strict_first zeroPhrase true true).1 (List.replicate 16 0) (by decide),
   by decide⟩

set_option maxRecDepth 10000 in
/-- C5: the canonical all-zero-entropy phrase strict-decodes, and with
hex formatting the rendered entropy is the 32-character zero string. -/
theorem zero_phrase_strict_decodes_to_zero_entropy :
    try_bip39_english zeroPhrase = some (List.replicate 16 0) ∧
    process_mnemonic zeroPhrase true false = .ok "00000000000000000000000000000000" :=
  ⟨by decide, by rfl⟩

/-! ## Diagnostic classification lemmas -/

theorem resolveWords_of_no_invalid {ws : List String}
    (h : ws.filter (fun w => (lookupWord w).isNone) = []) :
    ∃ is, resolveWords ws = some is := by
  apply resolveWords_isSome
  intro w hw
  have hnot := List.filter_eq_nil_iff.mp h w hw
  cases hl : lookupWord w
  · rw [hl] at hnot
    exact absurd rfl hnot
  · rfl

theorem resolveWords_none_of_invalid {ws : List String}
    (h : ws.filter (fun w => (lookupWord w).isNone) ≠ []) :
    resolveWords ws = none := by
  rw [resolveWords_eq_none_iff]
  obtain ⟨w, hw⟩ := List.exists_mem_of_ne_nil _ h
  have := List.mem_filter.mp hw
  exact ⟨w, this.1, this.2⟩

/-- C6: the failure classification of a failing decode follows a fixed
priority — phrases with unknown words always fail with the diagnostic
naming (the first three of) the invalid words; with all words known but
a bad word count, the diagnostic reports the count (the lenient and
strict paths use their respective count messages); and with valid words
and count, a failure is possible only with the lenient flag unset and is
the checksum catch-all. -/
theorem diagnostic_priority (s : String) (hex ic : Bool) :
    ((tokenize s).filter (fun w => (lookupWord w).isNone) ≠ [] →
      process_mnemonic s hex ic =
        .error (invalidWordsMsg (((tokenize s).filter (fun w => (lookupWord w).isNone)).take 3))) ∧
    ((tokenize s).filter (fun w => (lookupWord w).isNone) = [] →
      validWordCount (tokenize s).length = false →
      process_mnemonic s hex ic =
        .error (if ic then unsupportedCountMsg (tokenize s).length
                else wordCountMsg (tokenize s).length)) ∧
    ((tokenize s).filter (fun w => (lookupWord w).isNone) = [] →
      validWordCount (tokenize s).length = true →
      ∀ e, process_mnemonic s hex ic = .error e → ic = false ∧ e = checksumMsg) := by
  refine ⟨?_, ?_, ?_⟩
  · intro hinv
    have hres : resolveWords (tokenize s) = none := resolveWords_none_of_invalid hinv
    have htry : try_bip39_english s = none := by
      unfold try_bip39_english
      rw [hres]
    have hana : analyze_mnemonic s =
        invalidWordsMsg (((tokenize s).filter (fun w => (lookupWord w).isNone)).take 3) := by
      unfold analyze_mnemonic
      have hne : ((tokenize s).filter (fun w => (lookupWord w).isNone)).isEmpty = false :=
        List.isEmpty_eq_false.mpr hinv
      simp [hne]
    cases ic
    · rw [process_mnemonic_of_strict_none_strict hex htry, hana]
    · rw [process_mnemonic_of_strict_none_lenient hex htry]
      unfold decode_mnemonic_ignore_checksum
      rw [hres, hana]
      rfl
  · intro hinv hcount
    obtain ⟨is, his⟩ := resolveWords_of_no_invalid hinv
    have hlen : is.length = (tokenize s).length := resolveWords_length _ _ his
    have hc2 : validWordCount is.length = false := by
      rw [hlen]
      exact hcount
    have hstrict : strictDecodeIndices is = .error (.invalidWordCount is.length) := by
      unfold strictDecodeIndices
      simp [hc2]
    have htry : try_bip39_english s = none := by
      unfold try_bip39_english
      rw [his]
      show (strictDecodeIndices is).toOption = none
      rw [hstrict]
      rfl
    cases ic
    · rw [process_mnemonic_of_strict_none_strict hex htry]
      unfold analyze_mnemonic
      have hemp : ((tokenize s).filter (fun w => (lookupWord w).isNone)).isEmpty = true := by
        rw [hinv]; rfl
      simp [hemp, hcount]
    · rw [process_mnemonic_of_strict_none_lenient hex htry]
      unfold decode_mnemonic_ignore_checksum
      rw [his]
      show (decode_indices_ignore_checksum is).map (renderEntropy hex) = _
      unfold decode_indices_ignore_checksum
      rw [hlen, hcount]
      simp [Except.map]
  · intro hinv hcount e hproc
    obtain ⟨is, his⟩ := resolveWords_of_no_invalid hinv
    have hlen : is.length = (tokenize s).length := resolveWords_length _ _ his
    cases htry : try_bip39_english s with
    | some v =>
      rw [process_mnemonic_of_strict_some hex ic htry] at hproc
      exact absurd hproc (by simp)
    | none =>
      cases hic : ic
      · subst hic
        rw [process_mnemonic_of_strict_none_strict hex htry] at hproc
        have hana : analyze_mnemonic s = checksumMsg := by
          unfold analyze_mnemonic
          have hemp : ((tokenize s).filter (fun w => (lookupWord w).isNone)).isEmpty = true := by
            rw [hinv]; rfl
          simp [hemp, hcount]
        rw [hana] at hproc
        simp only [Except.error.injEq] at hproc
        exact ⟨rfl, hproc.symm⟩
      · subst hic
        rw [process_mnemonic_of_strict_none_lenient hex htry] at hproc
        have hdec : decode_mnemonic_ignore_checksum s = .ok (bitsToBytes (packIndices is)) := by
          unfold decode_mnemonic_ignore_checksum
          rw [his]
          show decode_indices_ignore_checksum is = _
          unfold decode_indices_ignore_checksum
          rw [hlen, hcount]
          rfl
        rw [hdec] at hproc
        exact absurd hproc (by simp [Except.map])

set_option maxRecDepth 10000 in
/-- C6 witness: a phrase containing the token "zzzzz" fails with the
diagnostic naming "zzzzz" among the invalid words, in strict and in
lenient mode alike. -/
theorem diagnostic_priority_witness :
    (tokenize "zzzzz abandon").filter (fun w => (lookupWord w).isNone) ≠ [] ∧
    process_mnemonic "zzzzz abandon" true false = .error (invalidWordsMsg ["zzzzz"]) ∧
    process_mnemonic "zzzzz abandon" true true = .error (invalidWordsMsg ["zzzzz"]) := by
  have h1 := (diagnostic_priority "zzzzz abandon" true false).1 (by decide)
  have h2 := (diagnostic_priority "zzzzz abandon" true true).1 (by decide)
  have ht : ((tokenize "zzzzz abandon").filter (fun w => (lookupWord w).isNone)).take 3
      = ["zzzzz"] := by decide
  rw [ht] at h1 h2
  exact ⟨by decide, h1, h2⟩

/-! ## SHA-256 output length -/

theorem length_shaFinish (hs : List Nat) (st : Nat × Nat × Nat × Nat × Nat × Nat × Nat × Nat) :
    (shaFinish hs st).length = 8 := by
  obtain ⟨a, b, c, d, e, f2, g, h⟩ := st
  rfl

theorem length_shaCompress (hs block : List Nat) : (shaCompress hs block).length = 8 := by
  unfold shaCompress
  exact length_shaFinish hs _

theorem length_foldl_shaCompress :
    ∀ (blocks : List (List Nat)) (hs : List Nat), hs.length = 8 →
      (blocks.foldl shaCompress hs).length = 8 := by
  intro blocks
  induction blocks with
  | nil => intro hs h; exact h
  | cons b bs ih =>
    intro hs _
    rw [List.foldl_cons]
    exact ih (shaCompress hs b) (length_shaCompress hs b)

theorem length_flatMap_be32 :
    ∀ hs : List Nat, hs.length = 8 → (hs.flatMap be32).length = 32 := by
  intro hs h8
  rcases hs with _ | ⟨a, hs⟩; · simp at h8
  rcases hs with _ | ⟨b, hs⟩; · simp at h8
  rcases hs with _ | ⟨c, hs⟩; · simp at h8
  rcases hs with _ | ⟨d, hs⟩; · simp at h8
  rcases hs with _ | ⟨e, hs⟩; · simp at h8
  rcases hs with _ | ⟨f2, hs⟩; · simp at h8
  rcases hs with _ | ⟨g, hs⟩; · simp at h8
  rcases hs with _ | ⟨h, hs⟩; · simp at h8
  rcases hs with _ | ⟨x, hs⟩
  · simp [be32]
  · simp only [List.length_cons] at h8
    omega

theorem length_sha256 (msg : List Nat) : (sha256 msg).length = 32 :=
  length_flatMap_be32 _
    (length_foldl_shaCompress (chunksOf 64 (shaPad msg)) shaH0 (by rfl))

/-! ## Inversion of successful strict decoding -/

theorem strictDecodeIndices_ok_inv {indices entropy : List Nat}
    (h : strictDecodeIndices indices = .ok entropy) :
    validWordCount indices.length = true ∧
    entropy = bitsToBytes ((packIndices indices).take (32 * indices.length / 3)) ∧
    (packIndices indices).drop (32 * indices.length / 3)
      = (bytesToBits (sha256 entropy)).take (indices.length / 3) := by
  unfold strictDecodeIndices at h
  by_cases hv : validWordCount indices.length = true
  · simp only [hv, if_true] at h
    by_cases hcs :
        (packIndices indices).drop (32 * indices.length / 3)
          = (bytesToBits (sha256 (bitsToBytes
              ((packIndices indices).take (32 * indices.length / 3))))).take
              (indices.length / 3)
    · simp only [hcs, if_true] at h
      simp only [Except.ok.injEq] at h
      subst h
      exact ⟨hv, rfl, hcs⟩
    · simp only [hcs, if_false] at h
      exact absurd h (by simp)
  · simp only [hv, if_false] at h
    exact absurd h (by simp)

/-! ## Round trip through generation and strict decoding (C4) -/

theorem strict_roundtrip_aux (L wc : Nat) (entropy : List Nat)
    (hL : entropy.length = L)
    (hbytes : ∀ b ∈ entropy, b < 256)
    (hwc : validWordCount wc = true)
    (h1 : 11 * wc = 8 * L + 8 * L / 32)
    (h2 : 32 * wc / 3 = 8 * L)
    (h3 : wc / 3 = 8 * L / 32)
    (h4 : 8 * L / 32 ≤ 256) :
    strictDecodeIndices (generateIndices entropy) = .ok entropy := by
  subst hL
  have hshaLen : (bytesToBits (sha256 entropy)).length = 256 := by
    rw [length_bytesToBits, length_sha256]
  have hcsLen : ((bytesToBits (sha256 entropy)).take (8 * entropy.length / 32)).length
      = 8 * entropy.length / 32 := by
    rw [List.length_take, hshaLen]
    omega
  have hentLen : (bytesToBits entropy).length = 8 * entropy.length :=
    length_bytesToBits entropy
  have hbitsLen : (bytesToBits entropy
      ++ (bytesToBits (sha256 entropy)).take (8 * entropy.length / 32)).length = 11 * wc := by
    rw [List.length_append, hentLen, hcsLen, h1]
  have hidx : (generateIndices entropy).length = wc := by
    unfold generateIndices
    rw [length_bitsToIndices, hbitsLen]
    omega
  have hpack : packIndices (generateIndices entropy)
      = bytesToBits entropy
        ++ (bytesToBits (sha256 entropy)).take (8 * entropy.length / 32) := by
    unfold generateIndices
    exact packIndices_bitsToIndices wc _ hbitsLen
  have htake : (bytesToBits entropy
      ++ (bytesToBits (sha256 entropy)).take (8 * entropy.length / 32)).take
        (8 * entropy.length) = bytesToBits entropy :=
    List.take_left' hentLen
  have hdrop : (bytesToBits entropy
      ++ (bytesToBits (sha256 entropy)).take (8 * entropy.length / 32)).drop
        (8 * entropy.length)
      = (bytesToBits (sha256 entropy)).take (8 * entropy.length / 32) :=
    List.drop_left' hentLen
  unfold strictDecodeIndices
  simp only [hidx, hwc, if_true, hpack, h2, h3, htake, hdrop,
    bitsToBytes_bytesToBits entropy hbytes, if_pos rfl]

/-- C4: for every entropy buffer of a valid BIP39 length (16, 20, 24,
28 or 32 bytes), generating the standard English mnemonic word indices
from it and strict-decoding them returns exactly the original entropy
bytes. -/
theorem strict_decode_roundtrip (entropy : List Nat)
    (hlen : entropy.length = 16 ∨ entropy.length = 20 ∨ entropy.length = 24 ∨
      entropy.length = 28 ∨ entropy.length = 32)
    (hbytes : ∀ b ∈ entropy, b < 256) :
    strictDecodeIndices (generateIndices entropy) = .ok entropy := by
  rcases hlen with h | h | h | h | h
  · exact strict_roundtrip_aux 16 12 entropy h hbytes (by decide) (by decide) (by decide)
      (by decide) (by decide)
  · exact strict_roundtrip_aux 20 15 entropy h hbytes (by decide) (by decide) (by decide)
      (by decide) (by decide)
  · exact strict_roundtrip_aux 24 18 entropy h hbytes (by decide) (by decide) (by decide)
      (by decide) (by decide)
  · exact strict_roundtrip_aux 28 21 entropy h hbytes (by decide) (by decide) (by decide)
      (by decide) (by decide)
  · exact strict_roundtrip_aux 32 24 entropy h hbytes (by decide) (by decide) (by decide)
      (by decide) (by decide)

set_option maxRecDepth 10000 in
/-- C4 witness: the all-zero 16-byte entropy round-trips through
generation and strict decoding. -/
theorem strict_decode_roundtrip_witness :
    ((List.replicate 16 (0 : Nat)).length = 16 ∨
      (List.replicate 16 (0 : Nat)).length = 20 ∨
      (List.replicate 16 (0 : Nat)).length = 24 ∨
      (List.replicate 16 (0 : Nat)).length = 28 ∨
      (List.replicate 16 (0 : Nat)).length = 32) ∧
    (∀ b ∈ List.replicate 16 (0 : Nat), b < 256) ∧
    strictDecodeIndices (generateIndices (List.replicate 16 0)) = .ok (List.replicate 16 0) :=
  ⟨by decide, by decide, strict_decode_roundtrip (List.replicate 16 0) (by decide) (by decide)⟩

/-! ## Checksum-bit corruption (C3) -/

/-- C3: for every phrase (given by its word indices) that strict-decodes
successfully, flipping any single bit inside the checksum segment of its
packed bit string (positions `32*n/3 ≤ i < 11*n`) makes strict decoding
of the corrupted phrase fail with a checksum mismatch, while the lenient
ignore-checksum decoder still succeeds on it and returns the full
`ceil(n*11/8)`-byte bit-packed buffer. -/
theorem checksum_flip_strict_fails_lenient_succeeds
    (indices entropy : List Nat) (i : Nat)
    (hok : strictDecodeIndices indices = .ok entropy)
    (hlo : 32 * indices.length / 3 ≤ i)
    (hhi : i < 11 * indices.length) :
    strictDecodeIndices (bitsToIndices (flipBit (packIndices indices) i))
      = .error .checksumMismatch ∧
    decode_indices_ignore_checksum (bitsToIndices (flipBit (packIndices indices) i))
      = .ok (bitsToBytes (flipBit (packIndices indices) i)) ∧
    (bitsToBytes (flipBit (packIndices indices) i)).length
      = (11 * indices.length + 7) / 8 := by
  obtain ⟨hv, hent, hcs⟩ := strictDecodeIndices_ok_inv hok
  have hblen : (packIndices indices).length = 11 * indices.length :=
    length_packIndices indices
  have hclen : (flipBit (packIndices indices) i).length = 11 * indices.length := by
    unfold flipBit
    rw [List.length_set, hblen]
  have hpack : packIndices (bitsToIndices (flipBit (packIndices indices) i))
      = flipBit (packIndices indices) i :=
    packIndices_bitsToIndices indices.length _ hclen
  have hidx : (bitsToIndices (flipBit (packIndices indices) i)).length = indices.length := by
    rw [length_bitsToIndices, hclen]
    omega
  have hip : i < (packIndices indices).length := by
    rw [hblen]
    omega
  have htake : (flipBit (packIndices indices) i).take (32 * indices.length / 3)
      = (packIndices indices).take (32 * indices.length / 3) := by
    unfold flipBit
    apply List.ext_getElem
    · rw [List.length_take, List.length_take, List.length_set]
    · intro j hj hj2
      rw [List.length_take, List.length_set, hblen] at hj
      rw [List.getElem_take, List.getElem_take]
      have hij : i ≠ j := by omega
      exact List.getElem_set_ne hij _
  have hdropne : (flipBit (packIndices indices) i).drop (32 * indices.length / 3)
      ≠ (packIndices indices).drop (32 * indices.length / 3) := by
    intro heq
    have h2 := congrArg (fun l => l[i - 32 * indices.length / 3]?) heq
    simp only [List.getElem?_drop] at h2
    have hi' : 32 * indices.length / 3 + (i - 32 * indices.length / 3) = i := by omega
    rw [hi'] at h2
    unfold flipBit at h2
    rw [List.getElem?_set_self hip, List.getElem?_eq_getElem hip,
        List.getD_eq_getElem?_getD, List.getElem?_eq_getElem hip] at h2
    simp at h2
  refine ⟨?_, ?_, ?_⟩
  · unfold strictDecodeIndices
    simp only [hidx, hv, if_true, hpack, htake]
    rw [← hent, ← hcs, if_neg hdropne]
  · unfold decode_indices_ignore_checksum
    simp only [hidx, hv, if_true, hpack]
  · rw [length_bitsToBytes, hclen]

set_option maxRecDepth 10000 in
/-- C3 witness: the zero-entropy phrase (indices `0,…,0,3`) with its
first checksum bit (position 128) flipped: strict decoding reports a
checksum mismatch, while the lenient decoder returns the 17-byte packed
buffer. -/
theorem checksum_flip_strict_fails_lenient_succeeds_witness :
    strictDecodeIndices [0, 0, 0, 0, 0, 0, 0, 0, 0, 0, 0, 3] = .ok (List.replicate 16 0) ∧
    32 * 12 / 3 ≤ 128 ∧ 128 < 11 * 12 ∧
    (strictDecodeIndices
        (bitsToIndices (flipBit (packIndices [0, 0, 0, 0, 0, 0, 0, 0, 0, 0, 0, 3]) 128))
      = .error .checksumMismatch ∧
    decode_indices_ignore_checksum
        (bitsToIndices (flipBit (packIndices [0, 0, 0, 0, 0, 0, 0, 0, 0, 0, 0, 3]) 128))
      = .ok (bitsToBytes (flipBit (packIndices [0, 0, 0, 0, 0, 0, 0, 0, 0, 0, 0, 3]) 128)) ∧
    (bitsToBytes (flipBit (packIndices [0, 0, 0, 0, 0, 0, 0, 0, 0, 0, 0, 3]) 128)).length
      = (11 * 12 + 7) / 8) :=
  ⟨by rfl, by decide, by decide,
   checksum_flip_strict_fails_lenient_succeeds [0, 0, 0, 0, 0, 0, 0, 0, 0, 0, 0, 3]
     (List.replicate 16 0) 128 (by rfl) (by decide) (by decide)⟩

/-! ## Batch aggregation lemmas -/

theorem success_error_partition (rs : List (Nat × ProcessResult)) :
    (successResults rs).length + (errorResults rs).length = rs.length := by
  induction rs with
  | nil => rfl
  | cons p rs ih =>
    rcases p with ⟨idx, r⟩
    cases r with
    | success e =>
      simp only [successResults, errorResults, List.filterMap_cons] at *
      simp only [List.length_cons]
      omega
    | error m mn =>
      simp only [successResults, errorResults, List.filterMap_cons] at *
      simp only [List.length_cons]
      omega

theorem length_tagResults (ms : List String) (hex ic : Bool) :
    (tagResults ms hex ic).length = ms.length := by
  unfold tagResults
  rw [List.length_map, List.enum_length]

theorem length_batchResults (ms : List String) (hex ic : Bool) :
    (batchResults ms hex ic).length = ms.length := by
  unfold batchResults sortResults
  rw [List.length_insertionSort, length_tagResults]

/-- C7: the batch exits with failure status exactly when the input is
non-empty, no phrase decoded successfully, and `skip_invalid` is not
set. -/
theorem exit_failure_iff (ms : List String) (hex ic skip_invalid : Bool) :
    exitsWithFailure ms hex ic skip_invalid = true ↔
      (ms ≠ [] ∧ successResults (batchResults ms hex ic) = [] ∧ skip_invalid = false) := by
  have hpart := success_error_partition (batchResults ms hex ic)
  have hlen := length_batchResults ms hex ic
  unfold exitsWithFailure
  simp only [Bool.and_eq_true, Bool.not_eq_true', List.isEmpty_eq_false, ne_eq,
    List.isEmpty_iff]
  constructor
  · rintro ⟨⟨herr, hsucc⟩, hskip⟩
    refine ⟨?_, hsucc, hskip⟩
    intro hms
    subst hms
    apply herr
    have h0 : (errorResults (batchResults ([] : List String) hex ic)).length = 0 := by
      rw [hsucc] at hpart
      simp only [List.length_nil] at hpart hlen
      omega
    exact List.length_eq_zero.mp h0
  · rintro ⟨hms, hsucc, hskip⟩
    refine ⟨⟨?_, hsucc⟩, hskip⟩
    intro herr
    apply hms
    rw [hsucc, herr] at hpart
    simp only [List.length_nil] at hpart
    exact List.length_eq_zero.mp (by omega)

/-- C7 witness: a single failing phrase with `skip_invalid` unset exits
with failure; with `skip_invalid` set it does not. -/
theorem exit_failure_iff_witness :
    exitsWithFailure ["zzzzz"] true false false = true ∧
    exitsWithFailure ["zzzzz"] true false true = false :=
  ⟨(exit_failure_iff ["zzzzz"] true false false).mpr ⟨by decide, by decide, rfl⟩,
   by decide⟩

/-! ## Advisory (C8) -/

/-- C8 counterexample: a one-phrase batch whose single phrase fails has
failure rate 1 > 0.5, yet with `skip_invalid` set the code emits no
advisory — the advisory does not depend on the failure rate alone. -/
theorem advisory_counterexample :
    errorResults (batchResults ["zzzzz"] true false) ≠ [] ∧
    ((errorResults (batchResults ["zzzzz"] true false)).length : ℚ)
        / ((["zzzzz"] : List String).length : ℚ) > 1 / 2 ∧
    showsAdvisory ["zzzzz"] true false true = false := by
  refine ⟨by decide, ?_, by decide⟩
  rw [show (errorResults (batchResults ["zzzzz"] true false)).length = 1 from by decide,
      show (["zzzzz"] : List String).length = 1 from rfl]
  norm_num

/-- C8 amended: the advisory is emitted exactly when `skip_invalid` is
NOT set, failures exist, and the failure rate exceeds one half. -/
theorem advisory_iff (ms : List String) (hex ic skip_invalid : Bool) :
    showsAdvisory ms hex ic skip_invalid = true ↔
      (skip_invalid = false ∧ errorResults (batchResults ms hex ic) ≠ [] ∧
        ((errorResults (batchResults ms hex ic)).length : ℚ) / (ms.length : ℚ) > 1 / 2) := by
  unfold showsAdvisory
  simp only [Bool.and_eq_true, Bool.not_eq_true', List.isEmpty_eq_false, ne_eq,
    decide_eq_true_eq]
  constructor
  · rintro ⟨⟨hskip, herr⟩, hrate⟩
    refine ⟨hskip, herr, by linarith⟩
  · rintro ⟨hskip, herr, hrate⟩
    refine ⟨⟨hskip, herr⟩, by linarith⟩

/-- C8 amended witness: the same failing one-phrase batch with
`skip_invalid` unset does emit the advisory. -/
theorem advisory_iff_witness : showsAdvisory ["zzzzz"] true false false = true := by
  apply (advisory_iff ["zzzzz"] true false false).mpr
  refine ⟨rfl, by decide, ?_⟩
  rw [show (errorResults (batchResults ["zzzzz"] true false)).length = 1 from by decide,
      show (["zzzzz"] : List String).length = 1 from rfl]
  norm_num

/-! ## Order restoration (C9) -/

theorem getElem_tagResults (ms : List String) (hex ic : Bool) (i : Nat)
    (h : i < (tagResults ms hex ic).length) (h2 : i < ms.length) :
    (tagResults ms hex ic)[i] = (i, runOne hex ic (ms.get ⟨i, h2⟩)) := by
  unfold tagResults at h ⊢
  rw [List.getElem_map, List.getElem_enum]
  rfl

theorem pairwise_keys_tagResults (ms : List String) (hex ic : Bool) :
    List.Pairwise (fun a b : Nat × ProcessResult => a.1 < b.1) (tagResults ms hex ic) := by
  rw [List.pairwise_iff_getElem]
  intro i j hi hj hij
  have hi2 : i < ms.length := length_tagResults ms hex ic ▸ hi
  have hj2 : j < ms.length := length_tagResults ms hex ic ▸ hj
  rw [getElem_tagResults ms hex ic i hi hi2, getElem_tagResults ms hex ic j hj hj2]
  exact hij

theorem eq_of_mem_tagResults {ms : List String} {hex ic : Bool} {a : Nat × ProcessResult}
    (ha : a ∈ tagResults ms hex ic) :
    ∃ h : a.1 < ms.length, a = (a.1, runOne hex ic (ms.get ⟨a.1, h⟩)) := by
  obtain ⟨n, hn, hna⟩ := List.mem_iff_getElem.mp ha
  have hn2 : n < ms.length := length_tagResults ms hex ic ▸ hn
  rw [getElem_tagResults ms hex ic n hn hn2] at hna
  subst hna
  exact ⟨hn2, rfl⟩

/-- C9: whatever order parallel decoding completes in — any permutation
of the index-tagged outcome collection — the final sort by original
index returns exactly the in-order tagged outcomes, so position `i`
holds the decoding outcome of input phrase `i`. -/
theorem batch_sort_restores_input_order (ms : List String) (hex ic : Bool)
    (l : List (Nat × ProcessResult)) (hperm : l.Perm (tagResults ms hex ic)) :
    sortResults l = tagResults ms hex ic ∧
    ∀ i (h : i < ms.length),
      (sortResults l)[i]? = some (i, runOne hex ic ms[i]) := by
  have hkeys := pairwise_keys_tagResults ms hex ic
  have hsorted_tag : List.Pairwise (fun a b : Nat × ProcessResult => a.1 ≤ b.1)
      (tagResults ms hex ic) := hkeys.imp (fun h => Nat.le_of_lt h)
  haveI : IsTotal (Nat × ProcessResult) (fun a b => a.1 ≤ b.1) :=
    ⟨fun a b => Nat.le_total a.1 b.1⟩
  haveI : IsTrans (Nat × ProcessResult) (fun a b => a.1 ≤ b.1) :=
    ⟨fun a b c hab hbc => Nat.le_trans hab hbc⟩
  have hsorted_res : List.Pairwise (fun a b : Nat × ProcessResult => a.1 ≤ b.1)
      (sortResults l) := List.sorted_insertionSort _ l
  have hperm2 : (sortResults l).Perm (tagResults ms hex ic) :=
    (List.perm_insertionSort _ l).trans hperm
  have heq : sortResults l = tagResults ms hex ic := by
    apply List.Perm.eq_of_sorted ?_ hsorted_res hsorted_tag hperm2
    intro a b ha hb hab hba
    obtain ⟨hal, hae⟩ := eq_of_mem_tagResults (hperm2.subset ha)
    obtain ⟨hbl, hbe⟩ := eq_of_mem_tagResults hb
    have hkey : a.1 = b.1 := Nat.le_antisymm hab hba
    have hfin : (⟨a.1, hal⟩ : Fin ms.length) = ⟨b.1, hbl⟩ := by
      simp only [Fin.mk.injEq]
      exact hkey
    rw [hae, hbe]
    simp only [Prod.mk.injEq]
    exact ⟨hkey, by rw [hfin]⟩
  refine ⟨heq, ?_⟩
  intro i h
  rw [heq]
  have hlen : i < (tagResults ms hex ic).length := by
    rw [length_tagResults]
    exact h
  rw [List.getElem?_eq_getElem hlen, getElem_tagResults ms hex ic i hlen h]
  rfl

set_option maxRecDepth 10000 in
/-- C9 witness: a two-phrase batch whose results complete in reversed
order is restored to input order by the sort. -/
theorem batch_sort_restores_input_order_witness :
    [(1, runOne true false "yyyyy"), (0, runOne true false "zzzzz")].Perm
      (tagResults ["zzzzz", "yyyyy"] true false) ∧
    sortResults [(1, runOne true false "yyyyy"), (0, runOne true false "zzzzz")]
      = tagResults ["zzzzz", "yyyyy"] true false ∧
    (sortResults [(1, runOne true false "yyyyy"), (0, runOne true false "zzzzz")])[0]?
      = some (0, runOne true false "zzzzz") ∧
    (sortResults [(1, runOne true false "yyyyy"), (0, runOne true false "zzzzz")])[1]?
      = some (1, runOne true false "yyyyy") := by
  have htag : tagResults ["zzzzz", "yyyyy"] true false
      = [(0, runOne true false "zzzzz"), (1, runOne true false "yyyyy")] := rfl
  have hperm : [(1, runOne true false "yyyyy"), (0, runOne true false "zzzzz")].Perm
      (tagResults ["zzzzz", "yyyyy"] true false) := by
    rw [htag]
    exact List.Perm.swap (0, runOne true false "zzzzz") (1, runOne true false "yyyyy") []
  have h := batch_sort_restores_input_order ["zzzzz", "yyyyy"] true false
    [(1, runOne true false "yyyyy"), (0, runOne true false "zzzzz")] hperm
  exact ⟨hperm, h.1, h.2 0 (by decide), h.2 1 (by decide)⟩
